import Mathlib

/-!
Verification of the feature-engineering pipeline of `flight_delays`
(`Flight_Delay_Model_Training.ipynb`).

The pandas data model is embedded shallowly: a `DataFrame` is an ordered
list of column names together with rows, each row an association list from
column name to value.  Float64 values are idealised as exact numbers
(`ℚ` or `ℝ`); for the normalisation step, where `np.log` can produce
`nan`/`-inf`, values live in `PyFloat`, which models those special floats
explicitly.  Pseudo-random row sampling (`DataFrame.sample`) is abstracted
by an arbitrary valid selection of row positions, so every theorem holds
for whatever rows the PRNG picks.
-/

namespace FlightDelays

/-- A pandas DataFrame over values of type `α`: an ordered list of column
labels, and rows stored as association lists from label to value. -/
structure DataFrame (α : Type) where
  cols : List String
  rows : List (List (String × α))

/-- Well-formedness: each row carries exactly the frame's columns, in order. -/
abbrev DataFrame.WF {α : Type} (df : DataFrame α) : Prop :=
  ∀ r ∈ df.rows, r.map Prod.fst = df.cols

/-- First value stored under label `c` in a row (pandas label lookup). -/
def lookupCol {α : Type} (c : String) : List (String × α) → Option α
  | [] => none
  | p :: r => if p.1 = c then some p.2 else lookupCol c r

/-- Column `c` of a frame, as the list of per-row values (`none` when a row
lacks the label). -/
def DataFrame.getCol {α : Type} (df : DataFrame α) (c : String) : List (Option α) :=
  df.rows.map (lookupCol c)

/-- Column `c` of a frame with a default for missing cells. -/
def getColD {α : Type} (df : DataFrame α) (c : String) (dflt : α) : List α :=
  df.rows.map (fun r => (lookupCol c r).getD dflt)

/-- Overwrite column `c` with the values `vs` (positionally), as pandas
column assignment does for an existing label. -/
def setColVals {α : Type} (df : DataFrame α) (c : String) (vs : List α) : DataFrame α :=
  ⟨df.cols,
   (df.rows.zip vs).map (fun rv => rv.1.map (fun p => if p.1 = c then (c, rv.2) else p))⟩

/-- Append a fresh column `c` with values `vs` (pandas assignment to a new
label puts it last). -/
def addColEnd {α : Type} (df : DataFrame α) (c : String) (vs : List α) : DataFrame α :=
  ⟨df.cols ++ [c], (df.rows.zip vs).map (fun rv => rv.1 ++ [(c, rv.2)])⟩

/-- Drop every occurrence of column `c` (`df.drop(c, axis=1)`). -/
def dropCol {α : Type} (df : DataFrame α) (c : String) : DataFrame α :=
  ⟨df.cols.filter (fun c2 => c2 != c), df.rows.map (fun r => r.filter (fun p => p.1 != c))⟩

/-! ### AirportSelector (`airport_select`) -/

/-- Lexicographic comparison of character lists by code point. -/
def charListLe : List Char → List Char → Bool
  | [], _ => true
  | _ :: _, [] => false
  | c :: cs, d :: ds =>
    if c.val < d.val then true else if d.val < c.val then false else charListLe cs ds

/-- Python string comparison: lexicographic by code point. -/
def strLe (a b : String) : Bool := charListLe a.data b.data

/-- Insert `x` into `l` before the first element it sorts no later than. -/
def insertSorted {γ : Type} (le : γ → γ → Bool) (x : γ) : List γ → List γ
  | [] => [x]
  | y :: ys => if le x y then x :: y :: ys else y :: insertSorted le x ys

/-- Insertion sort by a boolean comparison (the embedding of pandas
`sort_values`; on duplicate-free keys with a total order the result is the
unique sorted arrangement, independent of the algorithm). -/
def sortBy {γ : Type} (le : γ → γ → Bool) : List γ → List γ
  | [] => []
  | x :: xs => insertSorted le x (sortBy le xs)

/-- One raw flight record, restricted to the fields `airport_select` reads. -/
structure FlightRec where
  origin : String
  dest : String

/-- Embedding of `airport_select(df, num_airports)`:

    arrivals=df.groupby(['Dest']).size()
    departures=df.groupby(['Origin']).size()
    flights=arrivals+departures
    airports=flights.sort_values(ascending=False)[:num_airports].index.tolist()

`arrivals+departures` is pandas Series addition, which aligns the two
groupby results on the union of their indexes (sorted ascending); an
airport present in only one of them gets a missing (NaN) combined count.
`sort_values(ascending=False)` places the missing counts at the end, in
index order (`na_position='last'`).  pandas' default quicksort leaves the
relative order of tied counts unspecified; the embedding fixes ties by
airport code, and no theorem below depends on the tie order. -/
def airport_select (df : List FlightRec) (num_airports : ℕ) : List String :=
  let dests := df.map FlightRec.dest
  let origins := df.map FlightRec.origin
  let arrIdx := dests.dedup
  let depIdx := origins.dedup
  let unionIdx := sortBy strLe ((arrIdx ++ depIdx).dedup)
  let flights : List (String × Option ℕ) := unionIdx.map (fun c =>
    (c, if c ∈ arrIdx ∧ c ∈ depIdx then some (dests.count c + origins.count c) else none))
  let defined := flights.filter (fun p => p.2.isSome)
  let missing := flights.filter (fun p => !p.2.isSome)
  let sortedDef := sortBy (fun a b =>
    if a.2.getD 0 = b.2.getD 0 then strLe a.1 b.1 else decide (b.2.getD 0 < a.2.getD 0))
    defined
  ((sortedDef ++ missing).map Prod.fst).take num_airports

/-- The distinct airport codes observed in a record table (as origin or
destination). -/
def observedAirports (df : List FlightRec) : List String :=
  ((df.map FlightRec.dest).dedup ++ (df.map FlightRec.origin).dedup).dedup

/-! ### TimeDecoder (`convert_hours`) -/

/-- Python float floor division `a // b`. -/
def pyFloorDiv (a b : ℚ) : ℚ := ⌊a / b⌋

/-- Python float modulo `a % b` (for the positive divisors used here). -/
def pyMod (a b : ℚ) : ℚ := a - b * ⌊a / b⌋

/-- The per-value body of `convert_hours`: `df[col]//100+(df[col]%100)/60`. -/
def convertHour (v : ℚ) : ℚ := pyFloorDiv v 100 + pyMod v 100 / 60

/-- Embedding of `convert_hours(df, columns)`.  Each listed column is
replaced in place by its decimal-hour decoding, reading from the original
frame (the loop body reads `df`, not `df_copy`).  Reading a missing column
raises a `KeyError`, modelled as `none`. -/
def convert_hours (df : DataFrame ℚ) (columns : List String) : Option (DataFrame ℚ) :=
  if columns.all (fun c => decide (c ∈ df.cols)) then
    some ⟨df.cols, df.rows.map (fun r => r.map (fun p =>
      if p.1 ∈ columns then (p.1, convertHour p.2) else p))⟩
  else none

/-! ### SchemaAligner (`missing_cat_add`) -/

/-- Embedding of `missing_cat_add(X_train, X_val)`:

    X_val_new=X_val.reindex(columns=X_train.columns.values.tolist(), fill_value=0)

The output has exactly the training columns in order; a label present in
the row keeps its value, a label absent from the row is filled with `0`.
(pandas `reindex` raises on duplicate labels; the theorems below assume
duplicate-free column lists.) -/
def missing_cat_add {α : Type} [Zero α] (X_train X_val : DataFrame α) : DataFrame α :=
  ⟨X_train.cols,
   X_val.rows.map (fun r => X_train.cols.map (fun c => (c, (lookupCol c r).getD 0)))⟩

/-! ### Subsampler (`rand_subset`, `imbalanced_subsample`)

`DataFrame.sample` draws pseudo-randomly; it is abstracted by a list of
row positions `sel`.  pandas guarantees the drawn positions are distinct
and in range, which is the `ValidSel` predicate; theorems quantify over
every such selection, hence hold for the actual PRNG draw. -/

/-- The rows of `l` at positions `sel`, in selection order. -/
def applySel {β : Type} (l : List β) (sel : List ℕ) : List β :=
  sel.filterMap (fun i => l[i]?)

/-- A selection pandas `sample` could make: `m` distinct in-range positions
out of `n` rows. -/
abbrev ValidSel (sel : List ℕ) (n m : ℕ) : Prop :=
  sel.length = m ∧ sel.Nodup ∧ ∀ i ∈ sel, i < n

/-- Embedding of `rand_subset(X, y, subset_frac)`.  Adding the `y` column to
`X` and separating it again after sampling is modelled by pairing each row
with its label; `sel` abstracts the positions drawn by
`X_copy.sample(frac=subset_frac, random_state=rand_state)`. -/
def rand_subset {α : Type} (sel : List ℕ) (X : DataFrame α) (y : List Bool)
    (subset_frac : ℚ) : DataFrame α × List Bool :=
  if subset_frac < 1 then
    let paired := X.rows.zip y
    let samp := applySel paired sel
    (⟨X.cols, samp.map Prod.fst⟩, samp.map Prod.snd)
  else (X, y)

/-- Embedding of `imbalanced_subsample(X, y, subset_frac)`:

    num_samp=X_copy.shape[0]*subset_frac
    if X_copy_T.shape[0]>=num_samp//2: samp_T=X_copy_T.sample(n=int(num_samp//2),...)
    else: samp_T=X_copy_T
    (same for F); samp=samp_T.append(samp_F)

`selT`/`selF` abstract the two `sample(n=...)` draws. -/
def imbalanced_subsample {α : Type} (selT selF : List ℕ) (X : DataFrame α)
    (y : List Bool) (subset_frac : ℚ) : DataFrame α × List Bool :=
  if subset_frac < 1 then
    let paired := X.rows.zip y
    let pT := paired.filter (fun p => p.2)
    let pF := paired.filter (fun p => !p.2)
    let num_samp : ℚ := (X.rows.length : ℚ) * subset_frac
    let half : ℤ := ⌊num_samp / 2⌋
    let sampT := if (pT.length : ℤ) ≥ half then applySel pT selT else pT
    let sampF := if (pF.length : ℤ) ≥ half then applySel pF selF else pF
    let samp := sampT ++ sampF
    (⟨X.cols, samp.map Prod.fst⟩, samp.map Prod.snd)
  else (X, y)

/-! ### Normalizer (`normalize`)

`np.log` does not raise on non-positive input: it emits a warning and
returns `-inf` at `0` and `nan` on negatives.  scikit-learn's
`StandardScaler` validates its input with NaN allowed (NaN entries are
skipped when fitting) but rejects infinite values with a `ValueError`.
`PyFloat` models exactly the special values this step can produce. -/

/-- An idealised float64: a finite real, `nan`, or `-inf`. -/
inductive PyFloat where
  | fin : ℝ → PyFloat
  | nan : PyFloat
  | ninf : PyFloat

/-- `np.log` on a float64: positive reals map to their log, `0` to `-inf`,
negatives (and `nan`, `-inf`) to `nan`.  No exception is ever raised. -/
noncomputable def npLog : PyFloat → PyFloat
  | .fin x => if 0 < x then .fin (Real.log x) else if x = 0 then .ninf else .nan
  | .nan => .nan
  | .ninf => .nan

/-- Whether a value is `-inf` (what the scaler's finiteness check rejects;
`+inf` cannot arise in this pipeline). -/
def PyFloat.isNinf : PyFloat → Bool
  | .ninf => true
  | _ => false

/-- The finite entries of a column (NaN is skipped by the scaler's
statistics). -/
def finVals (vs : List PyFloat) : List ℝ :=
  vs.filterMap (fun v => match v with | .fin x => some x | _ => none)

/-- Column mean over the non-NaN entries. -/
noncomputable def colMean (vs : List PyFloat) : ℝ :=
  (finVals vs).sum / (finVals vs).length

/-- Column scale: population standard deviation over the non-NaN entries,
with `StandardScaler`'s zero-variance guard (`scale_` is set to 1). -/
noncomputable def colScale (vs : List PyFloat) : ℝ :=
  let m := colMean vs
  let sd := Real.sqrt (((finVals vs).map (fun x => (x - m) ^ 2)).sum / (finVals vs).length)
  if sd = 0 then 1 else sd

/-- `StandardScaler` transform of one value: `(x - mean) / scale`, with NaN
propagated. -/
noncomputable def scaleVal (m s : ℝ) : PyFloat → PyFloat
  | .fin x => .fin ((x - m) / s)
  | .nan => .nan
  | .ninf => .ninf

/-- Fitted `ScalingParameters`: per column, its mean and scale, in the order
of the normalize-column list. -/
abbrev Scaler := List (String × ℝ × ℝ)

/-- Embedding of `normalize(X_train, X_val, X_vars_normalize, X_vars_log)`.
Selecting an absent column with `.loc` raises a `KeyError`; the per-column
log is applied for columns in `X_vars_log`; `fit_transform` validates the
training slice (rejecting `-inf` with a `ValueError`, accepting NaN), fits
the per-column mean and scale, and standardises; `transform` validates the
validation slice the same way and applies the fitted parameters. -/
noncomputable def normalize (X_train X_val : DataFrame PyFloat)
    (X_vars_normalize X_vars_log : List String) :
    Except String (DataFrame PyFloat × DataFrame PyFloat × Scaler) :=
  if X_vars_normalize.all (fun c => decide (c ∈ X_train.cols)) &&
      X_vars_normalize.all (fun c => decide (c ∈ X_val.cols)) &&
      X_vars_log.all (fun c => decide (c ∈ X_vars_normalize)) then
    let trainCols : List (String × List PyFloat) := X_vars_normalize.map (fun c =>
      (c, if c ∈ X_vars_log then (getColD X_train c .nan).map npLog else getColD X_train c .nan))
    if trainCols.any (fun p => p.2.any PyFloat.isNinf) then
      .error "ValueError: input contains infinity"
    else
      let scaler : Scaler := trainCols.map (fun p => (p.1, colMean p.2, colScale p.2))
      let X_train_out := trainCols.foldl (fun d p =>
        setColVals d p.1 (p.2.map (scaleVal (colMean p.2) (colScale p.2)))) X_train
      let valCols : List (String × List PyFloat) := X_vars_normalize.map (fun c =>
        (c, if c ∈ X_vars_log then (getColD X_val c .nan).map npLog else getColD X_val c .nan))
      if valCols.any (fun p => p.2.any PyFloat.isNinf) then
        .error "ValueError: input contains infinity"
      else
        let X_val_out := (valCols.zip scaler).foldl (fun d pq =>
          setColVals d pq.1.1 (pq.1.2.map (scaleVal pq.2.2.1 pq.2.2.2))) X_val
        .ok (X_train_out, X_val_out, scaler)
  else .error "KeyError: column not found"

/-! ### CyclicalEncoder (`convert_cyclical`) -/

/-- Label of the emitted sine column: `'sin('+col+')'`. -/
def sinName (c : String) : String := "sin(" ++ c ++ ")"

/-- Label of the emitted cosine column: `'cos('+col+')'`. -/
def cosName (c : String) : String := "cos(" ++ c ++ ")"

/-- The emitted column labels of a cyclical dictionary, in emission order. -/
def cycNames : List (String × ℝ) → List String
  | [] => []
  | p :: rest => sinName p.1 :: cosName p.1 :: cycNames rest

/-- The loop body of `convert_cyclical`, iterated over the dictionary in
insertion order: read the column, append its sine and cosine encodings,
drop the original column. -/
noncomputable def cycFold (df : DataFrame ℝ) (dict : List (String × ℝ)) : DataFrame ℝ :=
  dict.foldl (fun d p =>
    let vals := getColD d p.1 0
    let d1 := addColEnd d (sinName p.1) (vals.map (fun v => Real.sin (2 * Real.pi * v / p.2)))
    let d2 := addColEnd d1 (cosName p.1) (vals.map (fun v => Real.cos (2 * Real.pi * v / p.2)))
    dropCol d2 p.1) df

/-- Embedding of `convert_cyclical(df, col_name_maxval_dict)`.  Python dict
keys are unique by construction; reading or dropping an absent column
raises a `KeyError`, modelled as `none`. -/
noncomputable def convert_cyclical (df : DataFrame ℝ)
    (col_name_maxval_dict : List (String × ℝ)) : Option (DataFrame ℝ) :=
  if (col_name_maxval_dict.map Prod.fst).Nodup ∧
      ∀ c ∈ col_name_maxval_dict.map Prod.fst, c ∈ df.cols then
    some (cycFold df col_name_maxval_dict)
  else none

/-- The spec's `atan2(y, x)`: the argument of the point `(x, y)`, valued in
`(-π, π]` (as `np.arctan2` is, up to the idealisation of floats). -/
noncomputable def atan2 (y x : ℝ) : ℝ := Complex.arg (x + y * Complex.I)

/-! ### Concrete inputs used by witnesses and counterexamples -/

/-- A record table where airport `ZZX` appears 50 times (always as origin)
while `AAY` appears 30 times and `BBZ` 20 times (always as destination). -/
def bugRecs : List FlightRec :=
  List.replicate 30 ⟨"ZZX", "AAY"⟩ ++ List.replicate 20 ⟨"ZZX", "BBZ"⟩

/-- A record table with three distinct airports, each seen as origin and as
destination. -/
def smallRecs : List FlightRec :=
  [⟨"AAA", "BBB"⟩, ⟨"BBB", "AAA"⟩, ⟨"AAA", "CCC"⟩, ⟨"CCC", "AAA"⟩]

/-- A reference (training) frame with columns `a`, `b`. -/
def exRef : DataFrame ℚ := ⟨["a", "b"], [[("a", 1), ("b", 2)]]⟩

/-- A target (validation) frame with columns `b`, `x`: column `a` is
missing, column `x` is extra. -/
def exTgt : DataFrame ℚ := ⟨["b", "x"], [[("b", 5), ("x", 7)], [("b", 6), ("x", 8)]]⟩

/-- A frame with one packed-HHMM time column. -/
def exHours : DataFrame ℚ := ⟨["CRSDepTime"], [[("CRSDepTime", 1415)]]⟩

/-- A 1000-row feature frame (values irrelevant to subsampling counts). -/
def exX : DataFrame ℚ := ⟨["f"], List.replicate 1000 [("f", 0)]⟩

/-- Labels for `exX`: 100 positive rows followed by 900 negative rows. -/
def exY : List Bool := List.replicate 100 true ++ List.replicate 900 false

/-- A two-row feature frame for the alignment witnesses. -/
def exX2 : DataFrame ℚ := ⟨["f"], [[("f", 3)], [("f", 4)]]⟩

/-- Labels for `exX2`. -/
def exY2 : List Bool := [true, false]

/-- A training frame whose log-flagged column contains a negative value. -/
noncomputable def exTrNeg : DataFrame PyFloat :=
  ⟨["CRSElapsedTime"], [[("CRSElapsedTime", .fin (-4))], [("CRSElapsedTime", .fin 1)]]⟩

/-- A training frame whose log-flagged column contains a zero. -/
noncomputable def exTrZero : DataFrame PyFloat :=
  ⟨["CRSElapsedTime"], [[("CRSElapsedTime", .fin 0)]]⟩

/-- A one-column frame holding the cyclical value 3 (period 4 in the
counterexample dictionary). -/
noncomputable def exCyc : DataFrame ℝ := ⟨["h"], [[("h", 3)]]⟩

/-! ## Shared lemmas about label lookup -/

theorem lookupCol_eq_none {α : Type} {c : String} {r : List (String × α)}
    (h : c ∉ r.map Prod.fst) : lookupCol c r = none := by
  induction r with
  | nil => rfl
  | cons p r ih =>
    simp only [List.map_cons, List.mem_cons] at h
    push_neg at h
    have h1 : ¬ p.1 = c := fun hh => h.1 hh.symm
    simp [lookupCol, h1, ih h.2]

theorem lookupCol_isSome {α : Type} {c : String} {r : List (String × α)}
    (h : c ∈ r.map Prod.fst) : ∃ v, lookupCol c r = some v := by
  induction r with
  | nil => simp at h
  | cons p r ih =>
    by_cases hp : p.1 = c
    · exact ⟨p.2, by simp [lookupCol, hp]⟩
    · simp only [List.map_cons, List.mem_cons] at h
      rcases h with h | h

      · exact absurd h.symm hp
      · simpa [lookupCol, hp] using ih h

theorem lookupCol_map_pair_mem {α : Type} {c : String} {l : List String} (f : String → α)
    (h : c ∈ l) : lookupCol c (l.map (fun x => (x, f x))) = some (f c) := by
  induction l with
  | nil => simp at h
  | cons a l ih =>
    by_cases ha : a = c
    · subst ha; simp [lookupCol]
    · rcases List.mem_cons.mp h with h | h
      · exact absurd h.symm ha
      · simpa [lookupCol, ha] using ih h

theorem lookupCol_append_right {α : Type} {m n : String} (v : α) (r : List (String × α))
    (h : m ≠ n) : lookupCol m (r ++ [(n, v)]) = lookupCol m r := by
  induction r with
  | nil => simp [lookupCol, Ne.symm h]
  | cons p r ih => by_cases hp : p.1 = m <;> simp [lookupCol, hp, ih]

theorem lookupCol_append_fresh {α : Type} {n : String} (v : α) {r : List (String × α)}
    (h : lookupCol n r = none) : lookupCol n (r ++ [(n, v)]) = some v := by
  induction r with
  | nil => simp [lookupCol]
  | cons p r ih =>
    by_cases hp : p.1 = n
    · simp [lookupCol, hp] at h
    · simp only [lookupCol, hp, if_false] at h
      simpa [lookupCol, hp] using ih h

theorem lookupCol_filter_ne {α : Type} {m c : String} (r : List (String × α))
    (h : m ≠ c) : lookupCol m (r.filter (fun p => p.1 != c)) = lookupCol m r := by
  induction r with
  | nil => rfl
  | cons p r ih =>
    by_cases hp : p.1 = c
    · have hm : ¬ p.1 = m := by rw [hp]; exact fun hh => h hh.symm
      have hcm : ¬ c = m := fun hh => h hh.symm
      simp [lookupCol, List.filter_cons, bne_iff_ne, hp, hm, hcm, ih]
    · by_cases hm : p.1 = m <;>
        simp [lookupCol, List.filter_cons, bne_iff_ne, hp, hm, h, ih]

theorem lookupCol_map_inplace {α : Type} {c : String} {cs : List String} (f : α → α)
    (r : List (String × α)) (hc : c ∈ cs) :
    lookupCol c (r.map (fun p => if p.1 ∈ cs then (p.1, f p.2) else p)) =
      (lookupCol c r).map f := by
  induction r with
  | nil => rfl
  | cons p r ih =>
    by_cases hp : p.1 = c
    · simp [lookupCol, hp, hc]
    · by_cases hmem : p.1 ∈ cs <;> simp [lookupCol, hp, hmem, ih]

theorem map_fst_filter_ne {α : Type} (c : String) (r : List (String × α)) :
    (r.filter (fun p => p.1 != c)).map Prod.fst = (r.map Prod.fst).filter (fun x => x != c) := by
  induction r with
  | nil => rfl
  | cons p r ih =>
    by_cases hp : p.1 = c <;> simp [List.filter_cons, hp, ih]

/-! ## C1 and C10: SchemaAligner (`missing_cat_add`) -/

/-- C1: the SchemaAligner output has exactly the reference's columns in the
reference's order; a reference column absent from the target is all-zero in
the output; a column outside the reference does not appear in the output.
(The duplicate-free column hypotheses reflect that pandas `reindex` rejects
duplicate axis labels.) -/
theorem missing_cat_add_schema {α : Type} [Zero α] (X_train X_val : DataFrame α)
    (hwf : X_val.WF) (href : X_train.cols.Nodup) (htgt : X_val.cols.Nodup) :
    (missing_cat_add X_train X_val).cols = X_train.cols ∧
    (∀ c, c ∈ X_train.cols → c ∉ X_val.cols →
      (missing_cat_add X_train X_val).getCol c =
        List.replicate X_val.rows.length (some (0 : α))) ∧
    (∀ c, c ∉ X_train.cols → c ∉ (missing_cat_add X_train X_val).cols) := by
  refine ⟨rfl, ?_, ?_⟩
  · intro c hc hnc
    rw [List.eq_replicate_iff]
    constructor
    · simp [DataFrame.getCol, missing_cat_add]
    · intro b hb
      simp only [DataFrame.getCol, missing_cat_add, List.map_map, Function.comp,
        List.mem_map] at hb
      obtain ⟨r, hr, rfl⟩ := hb
      rw [lookupCol_map_pair_mem _ hc]
      have hnone : lookupCol c r = none := lookupCol_eq_none (by rw [hwf r hr]; exact hnc)
      rw [hnone]
      rfl
  · intro c hc
    simpa [missing_cat_add] using hc

/-- Witness for `missing_cat_add_schema` at the concrete frames `exRef`,
`exTgt`. -/
theorem missing_cat_add_schema_witness :
    (exTgt.WF ∧ exRef.cols.Nodup ∧ exTgt.cols.Nodup) ∧
    ((missing_cat_add exRef exTgt).cols = exRef.cols ∧
     (∀ c, c ∈ exRef.cols → c ∉ exTgt.cols →
       (missing_cat_add exRef exTgt).getCol c =
         List.replicate exTgt.rows.length (some (0 : ℚ))) ∧
     (∀ c, c ∉ exRef.cols → c ∉ (missing_cat_add exRef exTgt).cols)) :=
  ⟨⟨by decide, by decide, by decide⟩,
    missing_cat_add_schema exRef exTgt (by decide) (by decide) (by decide)⟩

/-- C10: the SchemaAligner changes only column composition: a column present
in both frames keeps the target's values (in the target's row order), and
the row count is the target's. -/
theorem missing_cat_add_frame {α : Type} [Zero α] (X_train X_val : DataFrame α)
    (hwf : X_val.WF) (href : X_train.cols.Nodup) (htgt : X_val.cols.Nodup) :
    (missing_cat_add X_train X_val).rows.length = X_val.rows.length ∧
    ∀ c, c ∈ X_train.cols → c ∈ X_val.cols →
      (missing_cat_add X_train X_val).getCol c = X_val.getCol c := by
  constructor
  · simp [missing_cat_add]
  · intro c hc hvc
    simp only [DataFrame.getCol, missing_cat_add, List.map_map]
    apply List.map_congr_left
    intro r hr
    simp only [Function.comp]
    rw [lookupCol_map_pair_mem _ hc]
    obtain ⟨v, hv⟩ := @lookupCol_isSome α c r (by rw [hwf r hr]; exact hvc)
    rw [hv]
    rfl

/-- Witness for `missing_cat_add_frame` at the concrete frames `exRef`,
`exTgt`. -/
theorem missing_cat_add_frame_witness :
    (exTgt.WF ∧ exRef.cols.Nodup ∧ exTgt.cols.Nodup) ∧
    ((missing_cat_add exRef exTgt).rows.length = exTgt.rows.length ∧
     ∀ c, c ∈ exRef.cols → c ∈ exTgt.cols →
       (missing_cat_add exRef exTgt).getCol c = exTgt.getCol c) :=
  ⟨⟨by decide, by decide, by decide⟩,
    missing_cat_add_frame exRef exTgt (by decide) (by decide) (by decide)⟩

/-! ## C6: TimeDecoder (`convert_hours`) -/

theorem convertHour_eq (v : ℕ) :
    convertHour (v : ℚ) = ((v / 100 : ℕ) : ℚ) + ((v % 100 : ℕ) : ℚ) / 60 := by
  have h1 : ⌊(v : ℚ) / 100⌋₊ = v / 100 := by
    have h := @Nat.floor_div_eq_div ℚ _ _ v 100
    norm_num at h
    exact h
  have h2 : ⌊(v : ℚ) / 100⌋ = ((v / 100 : ℕ) : ℤ) := by
    rw [← Int.natCast_floor_eq_floor (by positivity), h1]
  have h3 : 100 * (v / 100) + v % 100 = v := Nat.div_add_mod v 100
  have h4 : (100 : ℚ) * ((v / 100 : ℕ) : ℚ) + ((v % 100 : ℕ) : ℚ) = (v : ℚ) := by
    exact_mod_cast congrArg (Nat.cast : ℕ → ℚ) h3
  unfold convertHour pyFloorDiv pyMod
  rw [h2]
  simp only [Int.cast_natCast]
  have h5 : (v : ℚ) - 100 * ((v / 100 : ℕ) : ℚ) = ((v % 100 : ℕ) : ℚ) := by linarith
  rw [h5]

/-- C6: `convert_hours` maps every value of a designated time column through
`v // 100 + (v % 100) / 60`; on packed-HHMM integers this is the claimed
hour-plus-minutes-fraction decoding, with `1415 ↦ 14.25`, `0 ↦ 0`, and
`2359 ↦ 23 + 59/60`. -/
theorem convert_hours_spec (df : DataFrame ℚ) (columns : List String) (c : String)
    (hc : c ∈ columns) (hsub : ∀ x ∈ columns, x ∈ df.cols) :
    (∃ out, convert_hours df columns = some out ∧
      out.getCol c = (df.getCol c).map (Option.map convertHour)) ∧
    (∀ v : ℕ, v ≤ 2359 →
      convertHour (v : ℚ) = ((v / 100 : ℕ) : ℚ) + ((v % 100 : ℕ) : ℚ) / 60) ∧
    convertHour 1415 = 57 / 4 ∧ convertHour 0 = 0 ∧ convertHour 2359 = 23 + 59 / 60 := by
  refine ⟨?_, fun v _ => convertHour_eq v, ?_, ?_, ?_⟩
  · have hall : (columns.all (fun x => decide (x ∈ df.cols))) = true := by
      rw [List.all_eq_true]
      intro x hx
      exact decide_eq_true (hsub x hx)
    refine ⟨_, by rw [convert_hours, if_pos hall], ?_⟩
    simp only [DataFrame.getCol, List.map_map]
    apply List.map_congr_left
    intro r hr
    simp only [Function.comp]
    exact lookupCol_map_inplace convertHour r hc
  · norm_num [convertHour, pyFloorDiv, pyMod]
  · norm_num [convertHour, pyFloorDiv, pyMod]
  · norm_num [convertHour, pyFloorDiv, pyMod]

/-- Witness for `convert_hours_spec` at the concrete frame `exHours`. -/
theorem convert_hours_spec_witness :
    ("CRSDepTime" ∈ ["CRSDepTime"] ∧
      (∀ x ∈ ["CRSDepTime"], x ∈ exHours.cols)) ∧
    (∃ out, convert_hours exHours ["CRSDepTime"] = some out ∧
      out.getCol "CRSDepTime" =
        (exHours.getCol "CRSDepTime").map (Option.map convertHour)) :=
  ⟨⟨by decide, by decide⟩,
    (convert_hours_spec exHours ["CRSDepTime"] "CRSDepTime" (by decide) (by decide)).1⟩

/-! ## Subsampling lemmas shared by C4, C8 and C9 -/

theorem applySel_mem {β : Type} {l : List β} {sel : List ℕ} {b : β}
    (h : b ∈ applySel l sel) : b ∈ l := by
  simp only [applySel, List.mem_filterMap] at h
  obtain ⟨i, _, hi⟩ := h
  obtain ⟨hlt, rfl⟩ := List.getElem?_eq_some.mp hi
  exact List.getElem_mem hlt

theorem applySel_length {β : Type} {l : List β} {sel : List ℕ}
    (h : ∀ i ∈ sel, i < l.length) : (applySel l sel).length = sel.length := by
  induction sel with
  | nil => rfl
  | cons i sel ih =>
    have hilt : i < l.length := h i (List.mem_cons_self i sel)
    have hi : l[i]? = some l[i] := List.getElem?_eq_getElem hilt
    simp only [applySel, List.filterMap_cons, hi, List.length_cons]
    simp only [applySel] at ih
    rw [ih (fun j hj => h j (List.mem_cons_of_mem _ hj))]

theorem length_filter_zip_pos {β : Type} (l1 : List β) (l2 : List Bool)
    (h : l1.length = l2.length) :
    ((l1.zip l2).filter (fun p => p.2)).length = l2.count true := by
  induction l2 generalizing l1 with
  | nil => simp
  | cons b t ih =>
    cases l1 with
    | nil => simp at h
    | cons a s =>
      simp only [List.length_cons, Nat.succ.injEq] at h
      cases b <;>
        simp [List.zip_cons_cons, List.filter_cons, List.count_cons, ih s h]

theorem length_filter_zip_neg {β : Type} (l1 : List β) (l2 : List Bool)
    (h : l1.length = l2.length) :
    ((l1.zip l2).filter (fun p => !p.2)).length = l2.count false := by
  induction l2 generalizing l1 with
  | nil => simp
  | cons b t ih =>
    cases l1 with
    | nil => simp at h
    | cons a s =>
      simp only [List.length_cons, Nat.succ.injEq] at h
      cases b <;>
        simp [List.zip_cons_cons, List.filter_cons, List.count_cons, ih s h]

theorem map_snd_eq_replicate {β : Type} (l : List (β × Bool)) (b : Bool)
    (h : ∀ p ∈ l, p.2 = b) :
    l.map Prod.snd = List.replicate l.length b := by
  rw [List.eq_replicate_iff]
  refine ⟨by simp, ?_⟩
  intro x hx
  obtain ⟨p, hp, rfl⟩ := List.mem_map.mp hx
  exact h p hp

/-! ## C8: both subsampling modes preserve row alignment -/

/-- C8: for row-aligned `X` and `y`, both `rand_subset` and
`imbalanced_subsample` return a frame and label vector of equal row count
whose (row, label) pairs all come from the input pairing — each output
label is the label originally paired with that feature row. -/
theorem subsample_alignment {α : Type} (sel selT selF : List ℕ) (X : DataFrame α)
    (y : List Bool) (f : ℚ) (h : X.rows.length = y.length) :
    ((rand_subset sel X y f).1.rows.length = (rand_subset sel X y f).2.length ∧
      ∀ p ∈ (rand_subset sel X y f).1.rows.zip (rand_subset sel X y f).2,
        p ∈ X.rows.zip y) ∧
    ((imbalanced_subsample selT selF X y f).1.rows.length =
        (imbalanced_subsample selT selF X y f).2.length ∧
      ∀ p ∈ (imbalanced_subsample selT selF X y f).1.rows.zip
          (imbalanced_subsample selT selF X y f).2,
        p ∈ X.rows.zip y) := by
  by_cases hf : f < 1
  · constructor
    · simp only [rand_subset, if_pos hf]
      refine ⟨by simp, ?_⟩
      rw [List.zip_map']
      intro p hp
      simp only [List.mem_map, Prod.mk.eta] at hp
      obtain ⟨q, hq, rfl⟩ := hp
      exact applySel_mem hq
    · simp only [imbalanced_subsample, if_pos hf]
      refine ⟨by simp, ?_⟩
      rw [List.zip_map']
      intro p hp
      simp only [List.mem_map, Prod.mk.eta] at hp
      obtain ⟨q, hq, rfl⟩ := hp
      rcases List.mem_append.mp hq with hq | hq
      · split at hq
        · exact List.mem_of_mem_filter (applySel_mem hq)
        · exact List.mem_of_mem_filter hq
      · split at hq
        · exact List.mem_of_mem_filter (applySel_mem hq)
        · exact List.mem_of_mem_filter hq
  · simp only [rand_subset, imbalanced_subsample, if_neg hf]
    exact ⟨⟨h, fun p hp => hp⟩, ⟨h, fun p hp => hp⟩⟩

/-- Witness for `subsample_alignment` at the concrete frame `exX2`. -/
theorem subsample_alignment_witness :
    (exX2.rows.length = exY2.length) ∧
    ((rand_subset [0] exX2 exY2 (1/2)).1.rows.length =
        (rand_subset [0] exX2 exY2 (1/2)).2.length ∧
      ∀ p ∈ (rand_subset [0] exX2 exY2 (1/2)).1.rows.zip
          (rand_subset [0] exX2 exY2 (1/2)).2, p ∈ exX2.rows.zip exY2) :=
  ⟨by decide, (subsample_alignment [0] [0] [0] exX2 exY2 (1/2) (by decide)).1⟩

/-! ## C9: class-balanced output lists all positives before all negatives -/

/-- C9: for `f < 1` the class-balanced subsample is the positive draw
followed by the negative draw, so its label vector is a block of `true`
followed by a block of `false`. -/
theorem imbalanced_subsample_order {α : Type} (selT selF : List ℕ) (X : DataFrame α)
    (y : List Bool) (f : ℚ) (hf : f < 1) :
    ∃ a b, (imbalanced_subsample selT selF X y f).2 =
      List.replicate a true ++ List.replicate b false := by
  simp only [imbalanced_subsample, if_pos hf]
  set paired := X.rows.zip y with hpaired
  set pT := paired.filter (fun p => p.2) with hpT
  set pF := paired.filter (fun p => !p.2) with hpF
  set sampT := if (pT.length : ℤ) ≥ ⌊(X.rows.length : ℚ) * f / 2⌋ then
      applySel pT selT else pT with hsT
  set sampF := if (pF.length : ℤ) ≥ ⌊(X.rows.length : ℚ) * f / 2⌋ then
      applySel pF selF else pF with hsF
  refine ⟨sampT.length, sampF.length, ?_⟩
  have hT : ∀ p ∈ sampT, p.2 = true := by
    intro p hp
    rw [hsT] at hp
    have hmem : p ∈ pT := by
      split at hp
      · exact applySel_mem hp
      · exact hp
    simpa using List.of_mem_filter hmem
  have hF : ∀ p ∈ sampF, p.2 = false := by
    intro p hp
    rw [hsF] at hp
    have hmem : p ∈ pF := by
      split at hp
      · exact applySel_mem hp
      · exact hp
    simpa using List.of_mem_filter hmem
  rw [List.map_append, map_snd_eq_replicate sampT true hT,
    map_snd_eq_replicate sampF false hF]

/-- Witness for `imbalanced_subsample_order` at the concrete frame `exX2`. -/
theorem imbalanced_subsample_order_witness :
    ((1 : ℚ)/2 < 1) ∧
    ∃ a b, (imbalanced_subsample [0] [0] exX2 exY2 (1/2)).2 =
      List.replicate a true ++ List.replicate b false :=
  ⟨by norm_num, imbalanced_subsample_order [0] [0] exX2 exY2 (1/2) (by norm_num)⟩

/-! ## C4: class-balanced subsample sizes -/

/-- C4: with `0 < f < 1`, the class-balanced subsample returns exactly
`min p ⌊n·f/2⌋` positive rows and `min q ⌊n·f/2⌋` negative rows, where `p`
and `q` are the available positive and negative counts and `n` the total
row count — scarce classes shrink the draw instead of erroring. -/
theorem imbalanced_subsample_counts {α : Type} (selT selF : List ℕ) (X : DataFrame α)
    (y : List Bool) (f : ℚ) (h : X.rows.length = y.length)
    (hf0 : 0 < f) (hf1 : f < 1)
    (hT : ValidSel selT (y.count true)
      (min (⌊(X.rows.length : ℚ) * f / 2⌋.toNat) (y.count true)))
    (hF : ValidSel selF (y.count false)
      (min (⌊(X.rows.length : ℚ) * f / 2⌋.toNat) (y.count false))) :
    (imbalanced_subsample selT selF X y f).2.count true =
      min (y.count true) (⌊(X.rows.length : ℚ) * f / 2⌋.toNat) ∧
    (imbalanced_subsample selT selF X y f).2.count false =
      min (y.count false) (⌊(X.rows.length : ℚ) * f / 2⌋.toNat) := by
  simp only [imbalanced_subsample, if_pos hf1]
  set t : ℤ := ⌊(X.rows.length : ℚ) * f / 2⌋ with hti
  have ht0 : 0 ≤ t := Int.floor_nonneg.mpr (by positivity)
  set paired := X.rows.zip y with hpaired
  set pT := paired.filter (fun p => p.2) with hpTi
  set pF := paired.filter (fun p => !p.2) with hpFi
  have hpT : pT.length = y.count true := length_filter_zip_pos _ _ h
  have hpF : pF.length = y.count false := length_filter_zip_neg _ _ h
  set sampT := if (pT.length : ℤ) ≥ t then applySel pT selT else pT with hsT
  set sampF := if (pF.length : ℤ) ≥ t then applySel pF selF else pF with hsF
  have hTtrue : ∀ p ∈ sampT, p.2 = true := by
    intro p hp
    rw [hsT] at hp
    have hmem : p ∈ pT := by
      split at hp
      · exact applySel_mem hp
      · exact hp
    simpa using List.of_mem_filter hmem
  have hFfalse : ∀ p ∈ sampF, p.2 = false := by
    intro p hp
    rw [hsF] at hp
    have hmem : p ∈ pF := by
      split at hp
      · exact applySel_mem hp
      · exact hp
    simpa using List.of_mem_filter hmem
  have hlenT : sampT.length = min (y.count true) t.toNat := by
    rw [hsT]
    split
    · rw [applySel_length (fun i hi => hpT ▸ hT.2.2 i hi), hT.1, Nat.min_comm]
    · next hcond =>
      push_neg at hcond
      have hlt : pT.length < t.toNat := by
        rw [← Int.toNat_of_nonneg ht0] at hcond
        exact_mod_cast hcond
      rw [hpT]
      exact (Nat.min_eq_left (Nat.le_of_lt (hpT ▸ hlt))).symm
  have hlenF : sampF.length = min (y.count false) t.toNat := by
    rw [hsF]
    split
    · rw [applySel_length (fun i hi => hpF ▸ hF.2.2 i hi), hF.1, Nat.min_comm]
    · next hcond =>
      push_neg at hcond
      have hlt : pF.length < t.toNat := by
        rw [← Int.toNat_of_nonneg ht0] at hcond
        exact_mod_cast hcond
      rw [hpF]
      exact (Nat.min_eq_left (Nat.le_of_lt (hpF ▸ hlt))).symm
  constructor
  · rw [List.map_append, map_snd_eq_replicate sampT true hTtrue,
      map_snd_eq_replicate sampF false hFfalse, List.count_append]
    simp [List.count_replicate, hlenT]
  · rw [List.map_append, map_snd_eq_replicate sampT true hTtrue,
      map_snd_eq_replicate sampF false hFfalse, List.count_append]
    simp [List.count_replicate, hlenF]

/-- Witness for `imbalanced_subsample_counts` at the spec's own instance:
`f = 0.5`, 1000 rows, 100 positive and 900 negative labels, giving
`min(100, 250)` positive and `min(900, 250)` negative output rows. -/
theorem imbalanced_subsample_counts_witness :
    (exX.rows.length = exY.length ∧ (0 : ℚ) < 1/2 ∧ (1 : ℚ)/2 < 1 ∧
      ValidSel (List.range 100) (exY.count true)
        (min (⌊(exX.rows.length : ℚ) * (1/2) / 2⌋.toNat) (exY.count true)) ∧
      ValidSel (List.range 250) (exY.count false)
        (min (⌊(exX.rows.length : ℚ) * (1/2) / 2⌋.toNat) (exY.count false))) ∧
    ((imbalanced_subsample (List.range 100) (List.range 250) exX exY (1/2)).2.count true =
        min 100 250 ∧
      (imbalanced_subsample (List.range 100) (List.range 250) exX exY (1/2)).2.count false =
        min 900 250) := by
  have hlen : exX.rows.length = 1000 := by
    simp only [exX, List.length_replicate]
  have hylen : exY.length = 1000 := by
    simp only [exY, List.length_append, List.length_replicate]
  have hct : exY.count true = 100 := by
    simp only [exY, List.count_append, List.count_replicate]
    decide
  have hcf : exY.count false = 900 := by
    simp only [exY, List.count_append, List.count_replicate]
    decide
  have hfloor : ⌊(exX.rows.length : ℚ) * (1/2) / 2⌋.toNat = 250 := by
    have h250 : ((1000 : ℕ) : ℚ) * (1/2) / 2 = 250 := by norm_num
    rw [hlen, h250]
    decide
  have hT : ValidSel (List.range 100) (exY.count true)
      (min (⌊(exX.rows.length : ℚ) * (1/2) / 2⌋.toNat) (exY.count true)) := by
    refine ⟨?_, List.nodup_range 100, ?_⟩
    · rw [hfloor, hct, List.length_range]
      decide
    · intro i hi
      rw [hct]
      exact List.mem_range.mp hi
  have hF : ValidSel (List.range 250) (exY.count false)
      (min (⌊(exX.rows.length : ℚ) * (1/2) / 2⌋.toNat) (exY.count false)) := by
    refine ⟨?_, List.nodup_range 250, ?_⟩
    · rw [hfloor, hcf, List.length_range]
      decide
    · intro i hi
      rw [hcf]
      exact Nat.lt_of_lt_of_le (List.mem_range.mp hi) (by norm_num)
  have hmain := imbalanced_subsample_counts (List.range 100) (List.range 250) exX exY
    (1/2) (by rw [hlen, hylen]) (by norm_num) (by norm_num) hT hF
  refine ⟨⟨by rw [hlen, hylen], by norm_num, by norm_num, hT, hF⟩, ?_, ?_⟩
  · rw [hmain.1, hct, hfloor]
  · rw [hmain.2, hcf, hfloor]

/-! ## C3: `airport_select` does not rank by combined count -/

/-- C3 (code bug): `airport_select` fails to rank airports by combined
origin-plus-destination occurrences.  In `bugRecs`, airport `ZZX` occurs 50
times and `AAY` only 30 times, yet the top-2 result is `["AAY", "BBZ"]` and
`ZZX` is absent altogether: `arrivals+departures` is pandas Series
addition, which yields a missing (NaN) combined count for every airport
seen only as origin or only as destination, and those sort last.  (The fix
would be `arrivals.add(departures, fill_value=0)`.) -/
theorem airport_select_nan_bug :
    airport_select bugRecs 2 = ["AAY", "BBZ"] ∧ "ZZX" ∉ airport_select bugRecs 2 := by
  constructor <;> decide

/-! ## C5: `airport_select` with too large a count -/

theorem insertSorted_perm {γ : Type} (le : γ → γ → Bool) (x : γ) (l : List γ) :
    (insertSorted le x l).Perm (x :: l) := by
  induction l with
  | nil => exact List.Perm.refl _
  | cons y ys ih =>
    rw [insertSorted]
    split
    · exact List.Perm.refl _
    · exact (ih.cons y).trans (List.Perm.swap x y ys)

theorem sortBy_perm {γ : Type} (le : γ → γ → Bool) (l : List γ) :
    (sortBy le l).Perm l := by
  induction l with
  | nil => exact List.Perm.refl _
  | cons x xs ih =>
    exact (insertSorted_perm le x (sortBy le xs)).trans (ih.cons x)

theorem map_fst_map_pair {γ δ : Type} (g : γ → δ) (S : List γ) :
    (S.map (fun c => (c, g c))).map Prod.fst = S := by
  induction S with
  | nil => rfl
  | cons c S ih => simp only [List.map_cons, ih]

theorem sortSlice_perm (fl : List (String × Option ℕ))
    (le2 : (String × Option ℕ) → (String × Option ℕ) → Bool) :
    ((sortBy le2 (fl.filter (fun p => p.2.isSome)) ++
        fl.filter (fun p => !p.2.isSome)).map Prod.fst).Perm (fl.map Prod.fst) := by
  have h1 : (sortBy le2 (fl.filter (fun p => p.2.isSome))).Perm
      (fl.filter (fun p => p.2.isSome)) := sortBy_perm _ _
  have h2 : ((fl.filter (fun p => p.2.isSome)) ++
      fl.filter (fun p => !p.2.isSome)).Perm fl :=
    List.filter_append_perm _ _
  exact ((h1.append_right _).trans h2).map Prod.fst

/-- C5 (amended): requesting more airports than were observed does not fail
with any error — the slice `[:num_airports]` simply truncates nothing, so
`airport_select` returns every observed distinct airport (a list shorter
than the requested count). -/
theorem airport_select_overflow (df : List FlightRec) (K : ℕ)
    (h : (observedAirports df).length ≤ K) :
    (airport_select df K).length = (observedAirports df).length ∧
    ∀ a, a ∈ airport_select df K ↔ a ∈ observedAirports df := by
  simp only [airport_select]
  have hobs : observedAirports df =
      ((df.map FlightRec.dest).dedup ++ (df.map FlightRec.origin).dedup).dedup := rfl
  set U := ((df.map FlightRec.dest).dedup ++ (df.map FlightRec.origin).dedup).dedup with hU
  set S := sortBy strLe U with hS
  set flights := S.map (fun c =>
    (c, if c ∈ (df.map FlightRec.dest).dedup ∧ c ∈ (df.map FlightRec.origin).dedup
        then some ((df.map FlightRec.dest).count c + (df.map FlightRec.origin).count c)
        else none)) with hflights
  have hmapfst : flights.map Prod.fst = S := by
    rw [hflights]
    exact map_fst_map_pair _ S
  have hperm : ((sortBy (fun a b =>
      if a.2.getD 0 = b.2.getD 0 then strLe a.1 b.1
      else decide (b.2.getD 0 < a.2.getD 0)) (flights.filter (fun p => p.2.isSome)) ++
      flights.filter (fun p => !p.2.isSome)).map Prod.fst).Perm U := by
    have hp := sortSlice_perm flights (fun a b =>
      if a.2.getD 0 = b.2.getD 0 then strLe a.1 b.1
      else decide (b.2.getD 0 < a.2.getD 0))
    rw [hmapfst] at hp
    exact hp.trans (sortBy_perm _ U)
  have hlen := hperm.length_eq
  have hKle : (((sortBy (fun a b =>
      if a.2.getD 0 = b.2.getD 0 then strLe a.1 b.1
      else decide (b.2.getD 0 < a.2.getD 0)) (flights.filter (fun p => p.2.isSome)) ++
      flights.filter (fun p => !p.2.isSome)).map Prod.fst).length) ≤ K :=
    hlen.trans_le (hobs ▸ h)
  have htake := List.take_of_length_le hKle
  rw [htake]
  constructor
  · rw [hlen, hobs]
  · intro a
    rw [hobs]
    exact hperm.mem_iff

/-- Witness for `airport_select_overflow`: `smallRecs` has three distinct
airports, and requesting four returns all three without error. -/
theorem airport_select_overflow_witness :
    ((observedAirports smallRecs).length ≤ 4) ∧
    ((airport_select smallRecs 4).length = (observedAirports smallRecs).length ∧
      ∀ a, a ∈ airport_select smallRecs 4 ↔ a ∈ observedAirports smallRecs) :=
  ⟨by decide, airport_select_overflow smallRecs 4 (by decide)⟩

/-- C5 counterexample: `smallRecs` has three distinct airports; requesting
four raises nothing — the Python slice past the end truncates silently and
a plain three-element list is returned, so no `ConfigurationError` (no such
class exists in the code) aborts the call. -/
theorem airport_select_overflow_cex :
    (airport_select smallRecs 4).length = 3 := by decide

/-! ## C2: Normalizer error behaviour

The notebook defines no error classes at all.  `np.log` never raises: it
returns NaN on negatives and `-inf` at zero, with a warning.  The scaler's
input validation accepts NaN (skipped while fitting) and rejects infinity
with a `ValueError`.  So a negative value flows through silently as NaN,
and only an exact zero aborts the run — with a `ValueError`, not a
`DomainError`. -/

theorem normalize_guard_true (X_train X_val : DataFrame PyFloat) (nc lc : List String)
    (h1 : ∀ c ∈ nc, c ∈ X_train.cols) (h2 : ∀ c ∈ nc, c ∈ X_val.cols)
    (h3 : ∀ c ∈ lc, c ∈ nc) :
    ((nc.all (fun c => decide (c ∈ X_train.cols)) &&
      nc.all (fun c => decide (c ∈ X_val.cols)) &&
      lc.all (fun c => decide (c ∈ nc))) = true) := by
  simp only [Bool.and_eq_true, List.all_eq_true, decide_eq_true_eq]
  exact ⟨⟨h1, h2⟩, h3⟩

theorem npLog_not_ninf {v : PyFloat} (hv : v ≠ PyFloat.fin 0) :
    (npLog v).isNinf = false := by
  cases v with
  | fin x =>
    rw [npLog]
    split
    · rfl
    · split
      · next hx0 => exact absurd (by rw [hx0]) hv
      · rfl
  | nan => rfl
  | ninf => rfl

theorem normalize_ok_of_safe (X_train X_val : DataFrame PyFloat) (nc lc : List String)
    (h1 : ∀ c ∈ nc, c ∈ X_train.cols) (h2 : ∀ c ∈ nc, c ∈ X_val.cols)
    (h3 : ∀ c ∈ lc, c ∈ nc)
    (h4 : ∀ c ∈ nc, ∀ v ∈ getColD X_train c PyFloat.nan,
      v.isNinf = false ∧ (c ∈ lc → v ≠ PyFloat.fin 0))
    (h5 : ∀ c ∈ nc, ∀ v ∈ getColD X_val c PyFloat.nan,
      v.isNinf = false ∧ (c ∈ lc → v ≠ PyFloat.fin 0)) :
    ∃ out, normalize X_train X_val nc lc = Except.ok out := by
  have hcols : ∀ (X : DataFrame PyFloat),
      (∀ c ∈ nc, ∀ v ∈ getColD X c PyFloat.nan,
        v.isNinf = false ∧ (c ∈ lc → v ≠ PyFloat.fin 0)) →
      ¬ ((nc.map (fun c => (c, if c ∈ lc then (getColD X c PyFloat.nan).map npLog
          else getColD X c PyFloat.nan))).any
        (fun p => p.2.any PyFloat.isNinf) = true) := by
    intro X hX hany
    obtain ⟨p, hp, hptrue⟩ := List.any_eq_true.mp hany
    obtain ⟨c, hc, rfl⟩ := List.mem_map.mp hp
    obtain ⟨v, hv, hvninf⟩ := List.any_eq_true.mp hptrue
    by_cases hcl : c ∈ lc
    · rw [if_pos hcl] at hv
      obtain ⟨w, hw, rfl⟩ := List.mem_map.mp hv
      rw [npLog_not_ninf ((hX c hc w hw).2 hcl)] at hvninf
      exact Bool.false_ne_true hvninf
    · rw [if_neg hcl] at hv
      rw [(hX c hc v hv).1] at hvninf
      exact Bool.false_ne_true hvninf
  simp only [normalize]
  rw [if_pos (normalize_guard_true X_train X_val nc lc h1 h2 h3)]
  rw [if_neg (hcols X_train h4), if_neg (hcols X_val h5)]
  exact ⟨_, rfl⟩

theorem normalize_error_of_zero (X_train X_val : DataFrame PyFloat) (nc lc : List String)
    (h1 : ∀ c ∈ nc, c ∈ X_train.cols) (h2 : ∀ c ∈ nc, c ∈ X_val.cols)
    (h3 : ∀ c ∈ lc, c ∈ nc)
    (hz : ∃ c ∈ lc, PyFloat.fin 0 ∈ getColD X_train c PyFloat.nan) :
    ∃ e, normalize X_train X_val nc lc = Except.error e := by
  obtain ⟨c, hcl, hc0⟩ := hz
  have hany : ((nc.map (fun c => (c, if c ∈ lc then (getColD X_train c PyFloat.nan).map npLog
      else getColD X_train c PyFloat.nan))).any
      (fun p => p.2.any PyFloat.isNinf) = true) := by
    rw [List.any_eq_true]
    refine ⟨_, List.mem_map_of_mem _ (h3 c hcl), ?_⟩
    rw [List.any_eq_true]
    refine ⟨npLog (PyFloat.fin 0), ?_, ?_⟩
    · rw [if_pos hcl]
      exact List.mem_map_of_mem npLog hc0
    · rw [npLog]
      norm_num
      rfl
  simp only [normalize]
  rw [if_pos (normalize_guard_true X_train X_val nc lc h1 h2 h3)]
  rw [if_pos hany]
  exact ⟨_, rfl⟩

/-- C2 (amended): the fit step raises no `DomainError` (no such class
exists): a zero in a log-flagged training column makes the run abort with
the scaler's finiteness-check `ValueError` (since `np.log(0)` is `-inf`),
while negative values pass through `np.log` as NaN with only a warning and
the run completes, returning a transformed output. -/
theorem normalize_error_behavior (X_train X_val : DataFrame PyFloat) (nc lc : List String)
    (h1 : ∀ c ∈ nc, c ∈ X_train.cols) (h2 : ∀ c ∈ nc, c ∈ X_val.cols)
    (h3 : ∀ c ∈ lc, c ∈ nc) :
    ((∃ c ∈ lc, PyFloat.fin 0 ∈ getColD X_train c PyFloat.nan) →
      ∃ e, normalize X_train X_val nc lc = Except.error e) ∧
    ((∀ c ∈ nc, ∀ v ∈ getColD X_train c PyFloat.nan,
        v.isNinf = false ∧ (c ∈ lc → v ≠ PyFloat.fin 0)) →
      (∀ c ∈ nc, ∀ v ∈ getColD X_val c PyFloat.nan,
        v.isNinf = false ∧ (c ∈ lc → v ≠ PyFloat.fin 0)) →
      ∃ out, normalize X_train X_val nc lc = Except.ok out) :=
  ⟨fun hz => normalize_error_of_zero X_train X_val nc lc h1 h2 h3 hz,
   fun h4 h5 => normalize_ok_of_safe X_train X_val nc lc h1 h2 h3 h4 h5⟩

theorem exTrNeg_entries : ∀ c ∈ (["CRSElapsedTime"] : List String),
    ∀ v ∈ getColD exTrNeg c PyFloat.nan,
      v.isNinf = false ∧ (c ∈ (["CRSElapsedTime"] : List String) → v ≠ PyFloat.fin 0) := by
  intro c hc v hv
  have hc' : c = "CRSElapsedTime" := by simpa using hc
  subst hc'
  have hv' : v = PyFloat.fin (-4) ∨ v = PyFloat.fin 1 := by
    simpa [exTrNeg, getColD, lookupCol] using hv
  rcases hv' with rfl | rfl
  · refine ⟨rfl, fun _ h => ?_⟩
    injection h with h
    norm_num at h
  · refine ⟨rfl, fun _ h => ?_⟩
    injection h with h
    norm_num at h

/-- C2 counterexample: a training matrix with a negative value (`-4`) in
the log-flagged column does not make `normalize` fail — `np.log` turns it
into NaN with only a warning, the scaler accepts NaN, and a transformed
output is returned.  The claimed `DomainError` abort does not happen. -/
theorem normalize_negative_no_error :
    ∃ out, normalize exTrNeg exTrNeg ["CRSElapsedTime"] ["CRSElapsedTime"] =
      Except.ok out :=
  normalize_ok_of_safe exTrNeg exTrNeg ["CRSElapsedTime"] ["CRSElapsedTime"]
    (by decide) (by decide) (by decide) exTrNeg_entries exTrNeg_entries

/-- Witness for `normalize_error_behavior`: at `exTrZero` (a zero in the
log column) the run aborts with an error; at `exTrNeg` (a negative value)
it completes with a transformed output. -/
theorem normalize_error_behavior_witness :
    (∃ e, normalize exTrZero exTrZero ["CRSElapsedTime"] ["CRSElapsedTime"] =
      Except.error e) ∧
    (∃ out, normalize exTrNeg exTrNeg ["CRSElapsedTime"] ["CRSElapsedTime"] =
      Except.ok out) := by
  constructor
  · apply (normalize_error_behavior exTrZero exTrZero ["CRSElapsedTime"]
      ["CRSElapsedTime"] (by decide) (by decide) (by decide)).1
    refine ⟨"CRSElapsedTime", by decide, ?_⟩
    simp [exTrZero, getColD, lookupCol]
  · exact (normalize_error_behavior exTrNeg exTrNeg ["CRSElapsedTime"]
      ["CRSElapsedTime"] (by decide) (by decide) (by decide)).2
      exTrNeg_entries exTrNeg_entries

/-! ## C7: CyclicalEncoder — frame-operation lemmas -/

theorem map_zip_left {β γ δ : Type} (f : β → δ) :
    ∀ (l1 : List β) (l2 : List γ), l1.length ≤ l2.length →
      (l1.zip l2).map (fun p => f p.1) = l1.map f := by
  intro l1
  induction l1 with
  | nil => intro l2 _; rfl
  | cons a l1 ih =>
    intro l2 h
    cases l2 with
    | nil => simp at h
    | cons b l2 =>
      simp only [List.length_cons, Nat.succ_le_succ_iff] at h
      simp only [List.zip_cons_cons, List.map_cons, ih l2 h]

theorem getColD_length {α : Type} (df : DataFrame α) (c : String) (d : α) :
    (getColD df c d).length = df.rows.length := by
  simp [getColD]

theorem addColEnd_rows_length {α : Type} (df : DataFrame α) (n : String) (vs : List α)
    (h : vs.length = df.rows.length) :
    (addColEnd df n vs).rows.length = df.rows.length := by
  simp [addColEnd, h]

theorem dropCol_rows_length {α : Type} (df : DataFrame α) (c : String) :
    (dropCol df c).rows.length = df.rows.length := by
  simp [dropCol]

theorem getColD_dropCol {α : Type} (df : DataFrame α) (c m : String) (d : α)
    (h : m ≠ c) : getColD (dropCol df c) m d = getColD df m d := by
  simp only [getColD, dropCol, List.map_map]
  apply List.map_congr_left
  intro r _
  simp only [Function.comp]
  rw [lookupCol_filter_ne r h]

theorem getColD_addColEnd_ne {α : Type} (df : DataFrame α) (n m : String) (vs : List α)
    (d : α) (hm : m ≠ n) (hlen : vs.length = df.rows.length) :
    getColD (addColEnd df n vs) m d = getColD df m d := by
  simp only [getColD, addColEnd, List.map_map]
  have h1 : ∀ rv ∈ df.rows.zip vs,
      ((fun r => (lookupCol m r).getD d) ∘ fun rv => rv.1 ++ [(n, rv.2)]) rv =
        (fun rv => (lookupCol m rv.1).getD d) rv := by
    intro rv _
    simp only [Function.comp]
    rw [lookupCol_append_right rv.2 rv.1 hm]
  rw [List.map_congr_left h1,
    map_zip_left (fun r => (lookupCol m r).getD d) df.rows vs (le_of_eq hlen.symm)]

theorem getColD_addColEnd_self {α : Type} (df : DataFrame α) (n : String) (vs : List α)
    (d : α) (hwf : df.WF) (hn : n ∉ df.cols) (hlen : vs.length = df.rows.length) :
    getColD (addColEnd df n vs) n d = vs := by
  simp only [getColD, addColEnd, List.map_map]
  have h1 : ∀ rv ∈ df.rows.zip vs,
      ((fun r => (lookupCol n r).getD d) ∘ fun rv => rv.1 ++ [(n, rv.2)]) rv = rv.2 := by
    intro rv hrv
    simp only [Function.comp]
    have hr : rv.1 ∈ df.rows := by
      rcases rv with ⟨r, v⟩
      exact (List.of_mem_zip hrv).1
    have hnone : lookupCol n rv.1 = none :=
      lookupCol_eq_none (by rw [hwf rv.1 hr]; exact hn)
    rw [lookupCol_append_fresh rv.2 hnone]
    rfl
  rw [List.map_congr_left h1]
  exact List.map_snd_zip df.rows vs (le_of_eq hlen)

theorem WF_addColEnd {α : Type} (df : DataFrame α) (n : String) (vs : List α)
    (hwf : df.WF) : (addColEnd df n vs).WF := by
  intro r hr
  simp only [addColEnd, List.mem_map] at hr
  obtain ⟨rv, hrv, rfl⟩ := hr
  have h1 : rv.1 ∈ df.rows := by
    rcases rv with ⟨r, v⟩
    exact (List.of_mem_zip hrv).1
  simp only [addColEnd, List.map_append, hwf rv.1 h1, List.map_cons]
  rfl

theorem WF_dropCol {α : Type} (df : DataFrame α) (c : String)
    (hwf : df.WF) : (dropCol df c).WF := by
  intro r hr
  simp only [dropCol, List.mem_map] at hr
  obtain ⟨r0, hr0, rfl⟩ := hr
  simp only [dropCol]
  rw [map_fst_filter_ne, hwf r0 hr0]

theorem sinName_mem_cycNames {dict : List (String × ℝ)} {p : String × ℝ}
    (h : p ∈ dict) : sinName p.1 ∈ cycNames dict := by
  induction dict with
  | nil => simp at h
  | cons q rest ih =>
    rcases List.mem_cons.mp h with rfl | h
    · simp [cycNames]
    · simp [cycNames, ih h]

theorem cosName_mem_cycNames {dict : List (String × ℝ)} {p : String × ℝ}
    (h : p ∈ dict) : cosName p.1 ∈ cycNames dict := by
  induction dict with
  | nil => simp at h
  | cons q rest ih =>
    rcases List.mem_cons.mp h with rfl | h
    · simp [cycNames]
    · simp [cycNames, ih h]

theorem cycFold_cons (d : DataFrame ℝ) (q : String × ℝ) (rest : List (String × ℝ)) :
    cycFold d (q :: rest) = cycFold
      (dropCol
        (addColEnd
          (addColEnd d (sinName q.1)
            ((getColD d q.1 0).map (fun v => Real.sin (2 * Real.pi * v / q.2))))
          (cosName q.1)
          ((getColD d q.1 0).map (fun v => Real.cos (2 * Real.pi * v / q.2))))
        q.1) rest := rfl

theorem getColD_step (d : DataFrame ℝ) (c s t m : String) (vs ws : List ℝ)
    (hv : vs.length = d.rows.length) (hw : ws.length = d.rows.length)
    (hm1 : m ≠ c) (hm2 : m ≠ s) (hm3 : m ≠ t) :
    getColD (dropCol (addColEnd (addColEnd d s vs) t ws) c) m 0 = getColD d m 0 := by
  rw [getColD_dropCol _ _ _ _ hm1,
    getColD_addColEnd_ne _ _ _ _ _ hm3 (by rw [addColEnd_rows_length d s vs hv]; exact hw),
    getColD_addColEnd_ne _ _ _ _ _ hm2 hv]

theorem cycFold_frozen (dict : List (String × ℝ)) (d : DataFrame ℝ) (m : String)
    (h1 : m ∉ dict.map Prod.fst) (h2 : m ∉ cycNames dict) :
    getColD (cycFold d dict) m 0 = getColD d m 0 := by
  induction dict generalizing d with
  | nil => rfl
  | cons q rest ih =>
    simp only [List.map_cons, List.mem_cons, not_or] at h1
    simp only [cycNames, List.mem_cons, not_or] at h2
    rw [cycFold_cons, ih _ h1.2 h2.2.2]
    exact getColD_step d q.1 (sinName q.1) (cosName q.1) m _ _
      (by rw [List.length_map, getColD_length])
      (by rw [List.length_map, getColD_length])
      h1.1 h2.1 h2.2.1

theorem cycFold_spec (dict : List (String × ℝ)) (df : DataFrame ℝ)
    (hwf : df.WF) (hnodup : df.cols.Nodup)
    (hkeys : (dict.map Prod.fst).Nodup)
    (hsub : ∀ c ∈ dict.map Prod.fst, c ∈ df.cols)
    (hgen : (cycNames dict).Nodup)
    (hfresh : ∀ n ∈ cycNames dict, n ∉ df.cols) :
    (cycFold df dict).cols
      = df.cols.filter (fun c => decide (c ∉ dict.map Prod.fst)) ++ cycNames dict ∧
    ∀ p ∈ dict,
      getColD (cycFold df dict) (sinName p.1) 0
          = (getColD df p.1 0).map (fun v => Real.sin (2 * Real.pi * v / p.2)) ∧
      getColD (cycFold df dict) (cosName p.1) 0
          = (getColD df p.1 0).map (fun v => Real.cos (2 * Real.pi * v / p.2)) := by
  induction dict generalizing df with
  | nil =>
    refine ⟨?_, by simp⟩
    simp [cycFold, cycNames]
  | cons q rest ih =>
    -- names for the three intermediate frames of this iteration
    set svals := (getColD df q.1 0).map (fun v => Real.sin (2 * Real.pi * v / q.2)) with hsvals
    set cvals := (getColD df q.1 0).map (fun v => Real.cos (2 * Real.pi * v / q.2)) with hcvals
    set d1 := addColEnd df (sinName q.1) svals with hd1
    set d2 := addColEnd d1 (cosName q.1) cvals with hd2
    set d3 := dropCol d2 q.1 with hd3
    have hsl : svals.length = df.rows.length := by
      rw [hsvals, List.length_map, getColD_length]
    have hcl : cvals.length = df.rows.length := by
      rw [hcvals, List.length_map, getColD_length]
    have hd1rows : d1.rows.length = df.rows.length := addColEnd_rows_length df _ _ hsl
    have hstep : cycFold df (q :: rest) = cycFold d3 rest := cycFold_cons df q rest
    -- decompose the hypotheses
    simp only [List.map_cons, List.nodup_cons] at hkeys
    have hqdf : q.1 ∈ df.cols := hsub q.1 (by simp)
    have hsubrest : ∀ c ∈ rest.map Prod.fst, c ∈ df.cols :=
      fun c hc => hsub c (by simp [hc])
    simp only [cycNames, List.nodup_cons, List.mem_cons, not_or] at hgen
    have hsdf : sinName q.1 ∉ df.cols := hfresh _ (by simp [cycNames])
    have htdf : cosName q.1 ∉ df.cols := hfresh _ (by simp [cycNames])
    have hfreshrest : ∀ n ∈ cycNames rest, n ∉ df.cols :=
      fun n hn => hfresh n (by simp [cycNames, hn])
    have hst : sinName q.1 ≠ cosName q.1 := hgen.1.1
    have hsc : sinName q.1 ≠ q.1 := fun h => hsdf (by rw [h]; exact hqdf)
    have htc : cosName q.1 ≠ q.1 := fun h => htdf (by rw [h]; exact hqdf)
    -- the columns of the intermediate frame
    have hd3cols : d3.cols = df.cols.filter (fun x => x != q.1) ++ [sinName q.1, cosName q.1] := by
      rw [hd3, hd2, hd1]
      simp only [dropCol, addColEnd]
      rw [List.append_assoc, List.filter_append, List.filter_append]
      have h1 : List.filter (fun c2 => c2 != q.1) [sinName q.1] = [sinName q.1] := by
        simp [bne_iff_ne, hsc]
      have h2 : List.filter (fun c2 => c2 != q.1) [cosName q.1] = [cosName q.1] := by
        simp [bne_iff_ne, htc]
      rw [h1, h2]
      rfl
    -- the hypotheses of the induction step, for the frame d3
    have hd3wf : d3.WF := WF_dropCol _ _ (WF_addColEnd _ _ _ (WF_addColEnd _ _ _ hwf))
    have hd3nodup : d3.cols.Nodup := by
      rw [hd3cols]
      refine List.Nodup.append (List.Nodup.filter _ hnodup) ?_ ?_
      · simp [hst]
      · rw [List.disjoint_left]
        intro a ha
        have : a ∈ df.cols := List.mem_of_mem_filter ha
        simp only [List.mem_cons, List.not_mem_nil, or_false, List.mem_singleton]
        rintro (rfl | rfl)
        · exact hsdf this
        · exact htdf this
    have hsubrest3 : ∀ c ∈ rest.map Prod.fst, c ∈ d3.cols := by
      intro c hc
      rw [hd3cols]
      apply List.mem_append_left
      rw [List.mem_filter]
      refine ⟨hsubrest c hc, ?_⟩
      rw [bne_iff_ne]
      intro hcq
      exact hkeys.1 (hcq ▸ hc)
    have hfreshrest3 : ∀ n ∈ cycNames rest, n ∉ d3.cols := by
      intro n hn
      rw [hd3cols]
      intro hmem
      rcases List.mem_append.mp hmem with hmem | hmem
      · exact hfreshrest n hn (List.mem_of_mem_filter hmem)
      · simp only [List.mem_cons, List.not_mem_nil, or_false, List.mem_singleton] at hmem
        rcases hmem with rfl | rfl
        · exact hgen.1.2 hn
        · exact hgen.2.1 hn
    have ihres := ih d3 hd3wf hd3nodup hkeys.2 hsubrest3 hgen.2.2 hfreshrest3
    -- values of the two freshly added columns, read back from d3
    have hs3 : getColD d3 (sinName q.1) 0 = svals := by
      rw [hd3, getColD_dropCol _ _ _ _ hsc, hd2,
        getColD_addColEnd_ne _ _ _ _ _ hst (by rw [hd1rows]; exact hcl), hd1,
        getColD_addColEnd_self df _ _ _ hwf hsdf hsl]
    have ht3 : getColD d3 (cosName q.1) 0 = cvals := by
      have hd1wf : d1.WF := WF_addColEnd _ _ _ hwf
      have htd1 : cosName q.1 ∉ d1.cols := by
        rw [hd1]
        simp only [addColEnd, List.mem_append, List.mem_singleton]
        rintro (h | h)
        · exact htdf h
        · exact hst h.symm
      rw [hd3, getColD_dropCol _ _ _ _ htc, hd2,
        getColD_addColEnd_self d1 _ _ _ hd1wf htd1 (by rw [hd1rows]; exact hcl)]
    -- frozen columns: keys of `rest` keep their values from df to d3
    have hrest3 : ∀ p ∈ rest, getColD d3 p.1 0 = getColD df p.1 0 := by
      intro p hp
      have hpdf : p.1 ∈ df.cols := hsubrest p.1 (List.mem_map_of_mem _ hp)
      have hp1 : p.1 ≠ q.1 := fun h => hkeys.1 (h ▸ List.mem_map_of_mem _ hp)
      have hp2 : p.1 ≠ sinName q.1 := fun h => hsdf (h ▸ hpdf)
      have hp3 : p.1 ≠ cosName q.1 := fun h => htdf (h ▸ hpdf)
      rw [hd3, hd2, hd1]
      exact getColD_step df q.1 (sinName q.1) (cosName q.1) p.1 svals cvals hsl hcl
        hp1 hp2 hp3
    constructor
    · -- column list
      rw [hstep, ihres.1, hd3cols, List.filter_append, List.filter_filter]
      have hfilter2 : List.filter (fun c => decide (c ∉ rest.map Prod.fst))
          [sinName q.1, cosName q.1] = [sinName q.1, cosName q.1] := by
        have hs : sinName q.1 ∉ rest.map Prod.fst :=
          fun h => hsdf (hsubrest _ h)
        have ht : cosName q.1 ∉ rest.map Prod.fst :=
          fun h => htdf (hsubrest _ h)
        simp [hs, ht]
      rw [hfilter2]
      have hfilter1 : List.filter
          (fun a => decide (a ∉ rest.map Prod.fst) && (a != q.1)) df.cols =
          List.filter (fun c => decide (c ∉ (q :: rest).map Prod.fst)) df.cols := by
        apply List.filter_congr
        intro x _
        by_cases h1 : x = q.1 <;> by_cases h2 : x ∈ rest.map Prod.fst <;>
          simp [h1, h2]
      rw [hfilter1, List.append_assoc]
      rfl
    · -- per-key values
      intro p hp
      rcases List.mem_cons.mp hp with rfl | hp
      · have hsfrozen : getColD (cycFold d3 rest) (sinName p.1) 0 =
            getColD d3 (sinName p.1) 0 := by
          apply cycFold_frozen
          · intro h
            exact hsdf (hsubrest _ h)
          · exact hgen.1.2
        have htfrozen : getColD (cycFold d3 rest) (cosName p.1) 0 =
            getColD d3 (cosName p.1) 0 := by
          apply cycFold_frozen
          · intro h
            exact htdf (hsubrest _ h)
          · exact hgen.2.1
        rw [hstep]
        exact ⟨by rw [hsfrozen, hs3], by rw [htfrozen, ht3]⟩
      · have hres := ihres.2 p hp
        rw [hstep]
        rw [hrest3 p hp] at hres
        exact hres

theorem atan2_sin_cos (θ : ℝ) :
    ∃ k : ℤ, atan2 (Real.sin θ) (Real.cos θ) = θ - k * (2 * Real.pi) := by
  have hp := Real.two_pi_pos
  have hmem := toIocMod_mem_Ioc hp (-Real.pi) θ
  have hpi : -Real.pi + 2 * Real.pi = Real.pi := by ring
  rw [hpi] at hmem
  have hsub := self_sub_toIocMod hp (-Real.pi) θ
  rw [zsmul_eq_mul] at hsub
  refine ⟨toIocDiv hp (-Real.pi) θ, ?_⟩
  have hθ : θ = toIocMod hp (-Real.pi) θ +
      ((toIocDiv hp (-Real.pi) θ : ℝ)) * (2 * Real.pi) := by linarith
  have hs : Real.sin θ = Real.sin (toIocMod hp (-Real.pi) θ) := by
    conv_lhs => rw [hθ]
    exact Real.sin_add_int_mul_two_pi _ _
  have hc : Real.cos θ = Real.cos (toIocMod hp (-Real.pi) θ) := by
    conv_lhs => rw [hθ]
    exact Real.cos_add_int_mul_two_pi _ _
  rw [hs, hc]
  simp only [atan2]
  rw [Complex.ofReal_cos, Complex.ofReal_sin, Complex.arg_cos_add_sin_mul_I hmem]
  linarith

/-- C7 (amended): `convert_cyclical` removes each dictionary column and
appends the two columns `sin(2π·value/P)` and `cos(2π·value/P)`; and for
the emitted pair, `atan2` recovers the angle `2πv/P` up to an integer
multiple of `2π` — the angular position — rather than the angle itself. -/
theorem convert_cyclical_correct (df : DataFrame ℝ) (dict : List (String × ℝ))
    (hwf : df.WF) (hnodup : df.cols.Nodup)
    (hkeys : (dict.map Prod.fst).Nodup)
    (hsub : ∀ c ∈ dict.map Prod.fst, c ∈ df.cols)
    (hgen : (cycNames dict).Nodup)
    (hfresh : ∀ n ∈ cycNames dict, n ∉ df.cols) :
    (∃ out, convert_cyclical df dict = some out ∧
      ∀ p ∈ dict, p.1 ∉ out.cols ∧ sinName p.1 ∈ out.cols ∧ cosName p.1 ∈ out.cols ∧
        getColD out (sinName p.1) 0
          = (getColD df p.1 0).map (fun v => Real.sin (2 * Real.pi * v / p.2)) ∧
        getColD out (cosName p.1) 0
          = (getColD df p.1 0).map (fun v => Real.cos (2 * Real.pi * v / p.2))) ∧
    (∀ (P : ℝ) (v : ℕ), 0 < P → (v : ℝ) < P →
      ∃ k : ℤ, atan2 (Real.sin (2 * Real.pi * v / P)) (Real.cos (2 * Real.pi * v / P))
        = 2 * Real.pi * v / P - k * (2 * Real.pi)) := by
  constructor
  · have hspec := cycFold_spec dict df hwf hnodup hkeys hsub hgen hfresh
    refine ⟨cycFold df dict, ?_, ?_⟩
    · simp only [convert_cyclical]
      rw [if_pos ⟨hkeys, hsub⟩]
    · intro p hp
      have hvals := hspec.2 p hp
      have hp1 : p.1 ∈ df.cols := hsub p.1 (List.mem_map_of_mem _ hp)
      refine ⟨?_, ?_, ?_, hvals.1, hvals.2⟩
      · rw [hspec.1]
        intro hmem
        rcases List.mem_append.mp hmem with hmem | hmem
        · rw [List.mem_filter] at hmem
          exact (of_decide_eq_true hmem.2) (List.mem_map_of_mem _ hp)
        · exact hfresh _ hmem hp1
      · rw [hspec.1]
        exact List.mem_append_right _ (sinName_mem_cycNames hp)
      · rw [hspec.1]
        exact List.mem_append_right _ (cosName_mem_cycNames hp)
  · intro P v _ _
    exact atan2_sin_cos _

/-- C7 counterexample: at period 4 and value 3 the emitted pair is
`(sin(3π/2), cos(3π/2)) = (-1, 0)` and `atan2 (-1) 0 = -π/2 ≠ 3π/2`: the
round trip recovers the angle only modulo `2π`, not `2πv/P` itself. -/
theorem convert_cyclical_roundtrip_cex :
    (∃ out, convert_cyclical exCyc [("h", (4 : ℝ))] = some out ∧
      getColD out (sinName "h") 0 = [Real.sin (2 * Real.pi * 3 / 4)] ∧
      getColD out (cosName "h") 0 = [Real.cos (2 * Real.pi * 3 / 4)]) ∧
    atan2 (Real.sin (2 * Real.pi * 3 / 4)) (Real.cos (2 * Real.pi * 3 / 4)) ≠
      2 * Real.pi * 3 / 4 := by
  constructor
  · have hspec := cycFold_spec [("h", (4 : ℝ))] exCyc (by decide) (by decide)
      (by decide) (by decide) (by decide) (by decide)
    refine ⟨cycFold exCyc [("h", (4 : ℝ))], ?_, ?_, ?_⟩
    · simp only [convert_cyclical]
      rw [if_pos ⟨by decide, by decide⟩]
    · have h := (hspec.2 ("h", (4 : ℝ)) (by simp)).1
      rw [h]
      have hcol : getColD exCyc "h" 0 = [(3 : ℝ)] := by
        simp [exCyc, getColD, lookupCol]
      rw [hcol]
      rfl
    · have h := (hspec.2 ("h", (4 : ℝ)) (by simp)).2
      rw [h]
      have hcol : getColD exCyc "h" 0 = [(3 : ℝ)] := by
        simp [exCyc, getColD, lookupCol]
      rw [hcol]
      rfl
  · have hang : 2 * Real.pi * 3 / 4 = Real.pi + Real.pi / 2 := by ring
    rw [hang]
    have hs : Real.sin (Real.pi + Real.pi / 2) = -1 := by
      rw [Real.sin_add_pi_div_two, Real.cos_pi]
    have hc : Real.cos (Real.pi + Real.pi / 2) = 0 := by
      rw [Real.cos_add_pi_div_two, Real.sin_pi, neg_zero]
    rw [hs, hc]
    have harg : atan2 (-1) 0 = -(Real.pi / 2) := by
      simp only [atan2]
      have hneg : ((0 : ℝ) : ℂ) + ((-1 : ℝ) : ℂ) * Complex.I = -Complex.I := by
        push_cast
        ring
      rw [hneg, Complex.arg_neg_I]
    rw [harg]
    have hpi := Real.pi_pos
    intro h
    linarith

/-- Witness for `convert_cyclical_correct` at the concrete frame `exCyc`
with the dictionary mapping column `h` to period 4. -/
theorem convert_cyclical_correct_witness :
    (exCyc.WF ∧ exCyc.cols.Nodup ∧
      (([("h", (4 : ℝ))].map Prod.fst).Nodup) ∧
      (∀ c ∈ [("h", (4 : ℝ))].map Prod.fst, c ∈ exCyc.cols) ∧
      (cycNames [("h", (4 : ℝ))]).Nodup ∧
      (∀ n ∈ cycNames [("h", (4 : ℝ))], n ∉ exCyc.cols)) ∧
    (∃ out, convert_cyclical exCyc [("h", (4 : ℝ))] = some out ∧
      ∀ p ∈ [("h", (4 : ℝ))],
        p.1 ∉ out.cols ∧ sinName p.1 ∈ out.cols ∧ cosName p.1 ∈ out.cols ∧
        getColD out (sinName p.1) 0
          = (getColD exCyc p.1 0).map (fun v => Real.sin (2 * Real.pi * v / p.2)) ∧
        getColD out (cosName p.1) 0
          = (getColD exCyc p.1 0).map (fun v => Real.cos (2 * Real.pi * v / p.2))) :=
  ⟨⟨by decide, by decide, by decide, by decide, by decide, by decide⟩,
    (convert_cyclical_correct exCyc [("h", (4 : ℝ))] (by decide) (by decide)
      (by decide) (by decide) (by decide) (by decide)).1⟩

end FlightDelays
